import Mathlib

/-!
Verification of the bootstrap repository's NIC-bootability classifier,
MAC validation, system discovery, firmware-update status inference,
concurrent aggregation and update pre-flight guard.

Strings are modelled as lists of characters (`Str`); Go's string
primitives (`strings.ToLower`, `strings.EqualFold`, `strings.Contains`,
`strings.FieldsFunc`) are embedded below.  Case conversion is modelled
for the ASCII range, which covers every character class the code
compares against (hex digits, separators, ASCII keywords).  Network
fetches are modelled as oracle inputs: `Option`/`Except` values standing
for the decoded snapshot, or for the fetch failure.  Concurrency is
modelled by quantifying over the order in which the per-(host, target)
critical sections complete: the mutex in the scheduler serialises the
aggregate updates, so every execution corresponds to folding the updates
in some permutation of the pair list.
-/

namespace ExBootstrap

/-- Strings as lists of characters. -/
abbrev Str : Type := List Char

/-- ASCII lower-casing of one character (model of Go's case folding on
the ASCII range: `A`-`Z`, code points 65-90, map to `a`-`z`). -/
def toLowerChar (c : Char) : Char :=
  if h : 65 ≤ c.toNat ∧ c.toNat ≤ 90 then
    ⟨c.val + 32, Or.inl (by
      show (c.val + 32).toNat < 55296
      have hsz : UInt32.size = 4294967296 := rfl
      have h32 : (32 : UInt32).toNat = 32 := rfl
      have hv : c.val.toNat = c.toNat := rfl
      rw [UInt32.toNat_add, h32, hsz, Nat.mod_eq_of_lt (by omega)]
      omega)⟩
  else c

/-- Model of Go's `strings.ToLower` (ASCII range). -/
def toLowerStr (s : Str) : Str := s.map toLowerChar

/-- Model of Go's `strings.EqualFold` (ASCII simple folding). -/
def eqFold (a b : Str) : Bool := toLowerStr a == toLowerStr b

/-- Model of Go's `strings.Contains hay needle`: the needle occurs as a
contiguous substring of the haystack. -/
def containsStr (hay needle : Str) : Bool :=
  match hay with
  | [] => needle.isEmpty
  | _ :: t => needle.isPrefixOf hay || containsStr t needle

/-- The separator predicate of the MAC splitter: the code splits on the
rune being a colon or a dash. -/
def isSepChar (c : Char) : Bool := c == ':' || c == '-'

/-- Hexadecimal-digit test exactly as written in `isValidMAC`, on code
points: Go compares runes, and 48, 57, 97, 102, 65, 70 are the code
points of the literals `0`, `9`, `a`, `f`, `A`, `F` in the source's
condition `(c < '0' || c > '9') && (c < 'a' || c > 'f') && (c < 'A' || c > 'F')`. -/
def isHexDigitGo (c : Char) : Bool :=
  !((decide (c.toNat < 48) || decide (57 < c.toNat)) &&
    (decide (c.toNat < 97) || decide (102 < c.toNat)) &&
    (decide (c.toNat < 65) || decide (70 < c.toNat)))

/-- Accumulator for the model of Go's `strings.FieldsFunc`: first
component is the maximal non-separator run at the front of the input,
second is the list of the remaining fields. -/
def fieldsAux : Str → Str × List Str
  | [] => ([], [])
  | c :: rest =>
    let p := fieldsAux rest
    if isSepChar c then ([], if p.1.isEmpty then p.2 else p.1 :: p.2)
    else (c :: p.1, p.2)

/-- Model of Go's `strings.FieldsFunc` with the separator predicate of
`isValidMAC`: the list of maximal runs of non-separator characters. -/
def fieldsFunc (s : Str) : List Str :=
  let p := fieldsAux s
  if p.1.isEmpty then p.2 else p.1 :: p.2

/-- The literal the code rejects case-insensitively. -/
def notAvailable : Str := "Not Available".toList

/-- Model of `isValidMAC` from internal/redfish/client.go: reject empty
and the literal Not Available, split on colon or dash, and require
exactly 6 fields of exactly 2 hexadecimal characters. -/
def isValidMAC (mac : Str) : Bool :=
  if mac == [] || eqFold mac notAvailable then false
  else if (fieldsFunc mac).length != 6 then false
  else (fieldsFunc mac).all (fun part => part.length == 2 && part.all isHexDigitGo)

/-- A string that is empty or starts with a separator: the shapes after
which a maximal non-separator run can legitimately end. -/
def SepBoundary (s : Str) : Prop :=
  s = [] ∨ ∃ d t, s = d :: t ∧ isSepChar d = true

/-- Declarative decomposition of a string into maximal non-separator
groups: possibly a leading separator run, then each group followed by a
non-empty separator run or the end of the string. -/
def Interleaves : Str → List Str → Prop
  | s, [] => ∀ c ∈ s, isSepChar c = true
  | s, g :: gs => ∃ s0 rest, (∀ c ∈ s0, isSepChar c = true) ∧ g ≠ [] ∧
      (∀ c ∈ g, isSepChar c = false) ∧ SepBoundary rest ∧
      s = s0 ++ g ++ rest ∧ Interleaves rest gs

/-- A MAC group as the specification describes it: exactly two
hexadecimal characters. -/
def hexGroup (g : Str) : Prop := g.length = 2 ∧ ∀ c ∈ g, isHexDigitGo c = true

/-- The MAC format exactly as the claim words it: six hex groups
separated uniformly by one separator character, colon or dash. -/
def macUniform (s : Str) : Prop :=
  ∃ sep : Char, (sep = ':' ∨ sep = '-') ∧
    ∃ gs : List Str, gs.length = 6 ∧ (∀ g ∈ gs, hexGroup g) ∧
      s = List.intercalate [sep] gs

/-- One IPv4 address entry of an ethernet interface snapshot. -/
structure IPv4Address where
  address : Str
  origin : Str
deriving DecidableEq

/-- Decoded ethernet-interface snapshot (rfEthernetInterface). -/
structure EthernetInterface where
  id : Str
  name : Str
  interfaceEnabled : Option Bool
  macAddress : Str
  uefiDevicePath : Str
  ipv4Addresses : List IPv4Address
deriving DecidableEq

/-- Model of `isBootable` from internal/redfish/client.go. -/
def isBootable (n : EthernetInterface) : Bool :=
  let uefi := toLowerStr n.uefiDevicePath
  if containsStr uefi ("pxe".toList) || containsStr uefi ("ipv4".toList) ||
      containsStr uefi ("ipv6".toList) || containsStr uefi ("mac(".toList) then
    true
  else if n.ipv4Addresses.any (fun a => eqFold a.origin ("dhcp".toList)) then
    true
  else if n.macAddress != [] &&
      (match n.interfaceEnabled with | none => true | some b => b) then
    true
  else false

/-- Bootable MAC addresses of one system (SystemMACs). -/
structure SystemMACs where
  SystemPath : Str
  MACs : List Str
deriving DecidableEq

/-- Per-system MAC selection of `DiscoverAllBootableMACs`: collect the
lower-cased MACs of the valid bootable NICs, and fall back to the first
valid MAC when that yields nothing. -/
def selectMACs (nics : List EthernetInterface) : List Str :=
  let macs := (nics.filter (fun nic => isValidMAC nic.macAddress && isBootable nic)).map
    (fun nic => toLowerStr nic.macAddress)
  if macs.isEmpty then
    match nics.find? (fun nic => isValidMAC nic.macAddress) with
    | some nic => [toLowerStr nic.macAddress]
    | none => []
  else macs

/-- Model of the member loop of `listEthernetInterfaces`: each element is
the outcome of one member GET; any single failure aborts the listing. -/
def collectNics : List (Option EthernetInterface) → Option (List EthernetInterface)
  | [] => some []
  | none :: _ => none
  | some n :: t =>
    match collectNics t with
    | none => none
    | some l => some (n :: l)

/-- Model of `listEthernetInterfaces`: the collection GET may fail, and
then each member GET may fail. -/
def listEthernetInterfaces (fetch : Option (List (Option EthernetInterface))) :
    Option (List EthernetInterface) :=
  match fetch with
  | none => none
  | some members => collectNics members

/-- Failure modes of discovery: a transport failure on the systems
collection, or an empty systems collection (NoSystemsError). -/
inductive DiscoverError where
  | transport
  | noSystems
deriving DecidableEq

/-- One gateway entry for discovery: a system path together with the
outcome of fetching that system's NIC collection and members. -/
abbrev SystemFetch : Type := Str × Option (List (Option EthernetInterface))

/-- The per-system body of the loop in `DiscoverAllBootableMACs`: skip
the system on a NIC-listing failure and when no MAC is selected. -/
def processSystem (entry : SystemFetch) : Option SystemMACs :=
  match listEthernetInterfaces entry.2 with
  | none => none
  | some nics =>
    let macs := selectMACs nics
    if macs.isEmpty then none else some ⟨entry.1, macs⟩

/-- Model of `DiscoverAllBootableMACs`: list the system paths (transport
failure or empty collection are errors), then process each system,
skipping failed or MAC-less ones. -/
def DiscoverAllBootableMACs (systemsFetch : Option (List SystemFetch)) :
    Except DiscoverError (List SystemMACs) :=
  match systemsFetch with
  | none => Except.error DiscoverError.transport
  | some entries =>
    if entries.isEmpty then Except.error DiscoverError.noSystems
    else Except.ok (entries.filterMap processSystem)

/-- One condition entry of the update-service status. -/
structure UpdateCondition where
  message : Str
  severity : Str
  timestamp : Str
  messageID : Str
deriving DecidableEq

/-- Decoded update-service status snapshot (UpdateServiceStatus). -/
structure UpdateServiceStatus where
  health : Str
  state : Str
  conditions : List UpdateCondition
deriving DecidableEq

/-- One condition entry of a firmware inventory. -/
structure FirmwareCondition where
  message : Str
  severity : Str
  timestamp : Str
  messageID : Str
deriving DecidableEq

/-- Decoded firmware-inventory snapshot (FirmwareInventory). -/
structure FirmwareInventory where
  version : Str
  state : Str
  health : Str
  conditions : List FirmwareCondition
deriving DecidableEq

/-- Decoded task snapshot (rfTask). -/
structure RfTask where
  id : Str
  name : Str
  taskState : Str
  message : Str
deriving DecidableEq

/-- The per-target record the status command produces (hostSummary). -/
structure AggregatedStatus where
  host : Str
  target : Str
  observedVersion : Str
  requestedVersion : Str
  status : Str
  error : Str
deriving DecidableEq

/-- The error accumulation idiom of firmware_status.go: keep the new text
if nothing is accumulated yet, otherwise append it after a semicolon. -/
def appendErr (acc new : Str) : Str :=
  if acc == [] then new else acc ++ ("; ".toList) ++ new

/-- Formatting of one condition: messageID followed by the message in
parentheses when a messageID exists, else just the message. -/
def condText (messageID message : Str) : Str :=
  if messageID != [] then messageID ++ (" (".toList) ++ message ++ (")".toList)
  else message

/-- Host-level signal from the update-service snapshot (firmware_status.go
lines 127-154): the pair of host-level error text and host-level
in-progress flag; a fetch failure contributes nothing. -/
def hostStep (fetch : Option UpdateServiceStatus) : Str × Bool :=
  match fetch with
  | none => ([], false)
  | some us =>
    let health := toLowerStr us.health
    let state := toLowerStr us.state
    if health != ("ok".toList) then
      (us.conditions.foldl (fun acc c => appendErr acc (condText c.messageID c.message)) [],
       false)
    else if state == ("updating".toList) then ([], true)
    else ([], false)

/-- The loop body of `GetActiveUpdateTasks`: a task whose fetch failed is
skipped; an active state together with update/firmware keywords, or an
active state with empty name and message, appends the task id. -/
def taskFoldStep (out : List Str) (m : Option RfTask) : List Str :=
  match m with
  | none => out
  | some t =>
    let ts := toLowerStr t.taskState
    let name := toLowerStr t.name
    let msg := toLowerStr t.message
    if ts == ("running".toList) || ts == ("starting".toList) ||
        ts == ("inprogress".toList) || ts == ("queued".toList) then
      if containsStr name ("update".toList) || containsStr name ("firmware".toList) ||
          containsStr msg ("update".toList) || containsStr msg ("firmware".toList) then
        out ++ [t.id]
      else if name == [] && msg == [] then out ++ [t.id]
      else out
    else out

/-- Model of `GetActiveUpdateTasks`: the task-collection fetch may fail;
otherwise the member loop accumulates the ids of the tasks that look
like running update jobs. -/
def GetActiveUpdateTasks (fetch : Option (List (Option RfTask))) : Option (List Str) :=
  match fetch with
  | none => none
  | some members => some (members.foldl taskFoldStep [])

/-- The task-service consultation of firmware_status.go lines 156-163:
only when the flag is still false, and only a successful fetch with a
non-empty result raises it. -/
def hostFlagWithTasks (flag : Bool) (tasksFetch : Option (List (Option RfTask))) : Bool :=
  if flag then flag
  else
    match GetActiveUpdateTasks tasksFetch with
    | none => flag
    | some tasks => if 0 < tasks.length then true else flag

/-- Target-level signal from the firmware-inventory fetch
(firmware_status.go lines 165-225): target-level error text, raw
observed version, and target-level in-progress flag. -/
def targetStep (fetch : Except Str FirmwareInventory) : Str × Str × Bool :=
  match fetch with
  | Except.error e => (e, [], false)
  | Except.ok inv =>
    let perr0 : Str :=
      if toLowerStr inv.health != [] && !(eqFold inv.health ("OK".toList)) then
        if 0 < inv.conditions.length then
          inv.conditions.foldl (fun acc c => appendErr acc (condText c.messageID c.message)) []
        else ("health: ".toList) ++ inv.health
      else []
    let st := toLowerStr inv.state
    let flag0 : Bool := st != [] && st != ("enabled".toList) && st != ("ok".toList)
    let res := inv.conditions.foldl (fun (acc : Str × Bool) c =>
      let m := toLowerStr c.message
      if c.severity == ("Critical".toList) || containsStr m ("failed".toList) ||
          containsStr m ("error".toList) then
        (appendErr acc.1 (condText c.messageID c.message), acc.2)
      else if containsStr m ("in progress".toList) || containsStr m ("install".toList) ||
          containsStr m ("installing".toList) || containsStr m ("running".toList) ||
          containsStr m ("downloading".toList) || containsStr m ("download in progress".toList) then
        (acc.1, true)
      else acc) (perr0, flag0)
    (res.1, inv.version, res.2)

/-- Per-(host, target) combination step of firmware_status.go lines
227-267: version fallback, error combination, and the final status. -/
def inferPair (host target requestedVersion hostErr : Str) (hostFlag : Bool)
    (targetFetch : Except Str FirmwareInventory) : AggregatedStatus :=
  let r := targetStep targetFetch
  let verTarget := if r.2.1 == [] then ("(unknown)".toList) else r.2.1
  let combinedErr := if r.1 != [] then appendErr hostErr r.1 else hostErr
  let status :=
    if combinedErr != [] then ("error".toList)
    else if hostFlag || r.2.2 then ("in-progress".toList)
    else ("idle".toList)
  ⟨host, target, verTarget, requestedVersion, status, combinedErr⟩

/-- One host's unit of work: host-level signals once, then every target
in list order. -/
def inferHost (host requestedVersion : Str) (usFetch : Option UpdateServiceStatus)
    (tasksFetch : Option (List (Option RfTask))) (targets : List Str)
    (invFetch : Str → Except Str FirmwareInventory) : List AggregatedStatus :=
  let hs := hostStep usFetch
  let flag := hostFlagWithTasks hs.2 tasksFetch
  targets.map (fun t => inferPair host t requestedVersion hs.1 flag (invFetch t))

/-- Outcome of the pre-flight phase of `SimpleUpdate`: either the skip
error (no POST issued) or the POST being issued. -/
inductive SimpleUpdateDecision where
  | skipped (versionInfo : List Str)
  | posted
deriving DecidableEq

/-- The body of the version-check loop of `SimpleUpdate`: the pair of
the all-at-expected-version flag and the collected version info lines; a
fetch failure clears the flag and collects nothing. -/
def preflightStep (expectedVersion : Str) (invFetch : Str → Option FirmwareInventory)
    (acc : Bool × List Str) (target : Str) : Bool × List Str :=
  match invFetch target with
  | none => (false, acc.2)
  | some fw =>
    (acc.1 && (fw.version == expectedVersion),
     acc.2 ++ [target ++ (": ".toList) ++ fw.version])

/-- Pre-flight decision of `SimpleUpdate` (internal/redfish/client.go
lines 459-495): with a non-empty expected version and no force flag,
fetch every target's inventory; a fetch failure clears the
all-at-expected flag; skip only when the flag survived and at least one
version was collected. -/
def SimpleUpdate (expectedVersion : Str) (force : Bool) (targets : List Str)
    (invFetch : Str → Option FirmwareInventory) : SimpleUpdateDecision :=
  if expectedVersion != [] && !force then
    let check := targets.foldl (preflightStep expectedVersion invFetch) (true, [])
    if check.1 && 0 < check.2.length then SimpleUpdateDecision.skipped check.2
    else SimpleUpdateDecision.posted
  else SimpleUpdateDecision.posted

/-- The key of the shared error map: host and target joined by a space. -/
def pairKey (host target : Str) : Str := host ++ (" ".toList) ++ target

/-- The shared aggregation state of the status command: version counts,
the error map, and the in-progress counter. -/
structure Aggregates where
  versionCounts : Str → Nat
  errorsList : Str → Option Str
  inProgress : Nat

/-- The empty aggregation state. -/
def initialAggregates : Aggregates :=
  ⟨fun _ => 0, fun _ => none, 0⟩

/-- One critical section of the scheduler: count the observed version,
record the error under the host-target key when non-empty, and bump the
in-progress counter when the status says so. -/
def aggregateRecord (a : Aggregates) (r : AggregatedStatus) : Aggregates where
  versionCounts := fun v =>
    if v = r.observedVersion then a.versionCounts v + 1 else a.versionCounts v
  errorsList := fun k =>
    if r.error != [] && k == pairKey r.host r.target then some r.error
    else a.errorsList k
  inProgress := a.inProgress + (if r.status == ("in-progress".toList) then 1 else 0)

/-- The record produced for one (host, target) pair, given the fetch
oracles. -/
def recordFor (requestedVersion : Str) (usF : Str → Option UpdateServiceStatus)
    (taskF : Str → Option (List (Option RfTask)))
    (invF : Str → Str → Except Str FirmwareInventory) (host target : Str) :
    AggregatedStatus :=
  let hs := hostStep (usF host)
  let flag := hostFlagWithTasks hs.2 (taskF host)
  inferPair host target requestedVersion hs.1 flag (invF host target)

/-- The canonical (host, target) pair list: hosts in input order, each
host's targets in list order. -/
def pairList (hosts targets : List Str) : List (Str × Str) :=
  hosts.flatMap (fun h => targets.map (fun t => (h, t)))

/-- The records as they accumulate when the critical sections complete in
the given order. -/
def schedulerRecords (requestedVersion : Str) (usF : Str → Option UpdateServiceStatus)
    (taskF : Str → Option (List (Option RfTask)))
    (invF : Str → Str → Except Str FirmwareInventory)
    (order : List (Str × Str)) : List AggregatedStatus :=
  order.map (fun p => recordFor requestedVersion usF taskF invF p.1 p.2)

/-- Final aggregation state after all critical sections ran. -/
def runAggregation (records : List AggregatedStatus) : Aggregates :=
  records.foldl aggregateRecord initialAggregates

/-- Joining two error texts the way the claim words it: by a semicolon
and a space, omitting empty parts. -/
def specCombine (a b : Str) : Str :=
  List.intercalate ("; ".toList) (([a, b]).filter (fun e => e != []))

/-- Joining formatted condition texts the way the specification words it,
made exact: entries joined by a semicolon and space, except that empty
texts at the front are dropped (the accumulating append cannot emit a
separator before the first non-empty text). -/
def specJoinConds (conds : List UpdateCondition) : Str :=
  List.intercalate ("; ".toList)
    ((conds.map (fun c => condText c.messageID c.message)).dropWhile (fun e => e == []))

/-- The host-level step exactly as the claim words it: the conditions are
collected only when health is PRESENT and not OK; otherwise the updating
state is consulted. -/
def specHostStepClaim (us : UpdateServiceStatus) : Str × Bool :=
  if us.health != [] && !(eqFold us.health ("OK".toList)) then
    (specJoinConds us.conditions, false)
  else if eqFold us.health ("OK".toList) && eqFold us.state ("updating".toList) then
    ([], true)
  else ([], false)

/-- The host-level step as amended: the conditions are collected whenever
health is not OK case-insensitively, including when health is absent. -/
def hostStepAmended (us : UpdateServiceStatus) : Str × Bool :=
  if !(eqFold us.health ("OK".toList)) then (specJoinConds us.conditions, false)
  else if eqFold us.state ("updating".toList) then ([], true)
  else ([], false)

/-- A task that raises the in-progress flag, as the claim words it: an
active state together with an update/firmware keyword in name or
message, or an active state with empty name and message. -/
def specTaskQualifies (t : RfTask) : Bool :=
  ([("running".toList), ("starting".toList), ("inprogress".toList),
    ("queued".toList)].contains (toLowerStr t.taskState)) &&
  (([("update".toList), ("firmware".toList)].any (fun kw =>
      containsStr (toLowerStr t.name) kw || containsStr (toLowerStr t.message) kw)) ||
    (t.name.isEmpty && t.message.isEmpty))

/-- Whether the loop body of `GetActiveUpdateTasks` appends the task's
id, extracted as a predicate: an active state, and either an
update/firmware keyword in the lowered name or message, or an empty name
and message. -/
def codeTaskIncluded (t : RfTask) : Bool :=
  (toLowerStr t.taskState == ("running".toList) ||
    toLowerStr t.taskState == ("starting".toList) ||
    toLowerStr t.taskState == ("inprogress".toList) ||
    toLowerStr t.taskState == ("queued".toList)) &&
  ((containsStr (toLowerStr t.name) ("update".toList) ||
      containsStr (toLowerStr t.name) ("firmware".toList) ||
      containsStr (toLowerStr t.message) ("update".toList) ||
      containsStr (toLowerStr t.message) ("firmware".toList)) ||
    (toLowerStr t.name == [] && toLowerStr t.message == []))

/-- Arithmetic fact behind `toLowerChar`: adding 32 to an upper-case
ASCII code point does not wrap around. -/
theorem char_add32_toNat (c : Char) (h : c.toNat ≤ 90) :
    (c.val + 32).toNat = c.toNat + 32 := by
  have hsz : UInt32.size = 4294967296 := rfl
  have h32 : (32 : UInt32).toNat = 32 := rfl
  have hv : c.val.toNat = c.toNat := rfl
  rw [UInt32.toNat_add, h32, hsz, Nat.mod_eq_of_lt (by omega)]
  omega

/-- Characters are determined by their code point. -/
theorem char_eq_iff_toNat (c d : Char) : c = d ↔ c.toNat = d.toNat := by
  constructor
  · intro h; rw [h]
  · intro h; exact Char.eq_of_val_eq (UInt32.ext h)

/-- Code point of the lower-cased character. -/
theorem toLowerChar_toNat (c : Char) :
    (toLowerChar c).toNat =
      if 65 ≤ c.toNat ∧ c.toNat ≤ 90 then c.toNat + 32 else c.toNat := by
  unfold toLowerChar
  by_cases h : 65 ≤ c.toNat ∧ c.toNat ≤ 90
  · rw [dif_pos h, if_pos h]
    exact char_add32_toNat c h.2
  · rw [dif_neg h, if_neg h]

/-- Lower-casing is idempotent. -/
theorem toLowerChar_idem (c : Char) : toLowerChar (toLowerChar c) = toLowerChar c := by
  rw [char_eq_iff_toNat, toLowerChar_toNat, toLowerChar_toNat]
  split_ifs <;> omega

/-- `containsStr` decides the infix relation. -/
theorem containsStr_iff_substring (hay needle : Str) :
    containsStr hay needle = true ↔ needle <:+: hay := by
  induction hay with
  | nil =>
    simp [containsStr, List.isEmpty_iff, List.infix_nil]
  | cons c t ih =>
    simp only [containsStr, Bool.or_eq_true, ih, List.isPrefixOf_iff_prefix]
    constructor
    · rintro (h | h)
      · exact h.isInfix
      · exact h.trans (List.suffix_cons c t).isInfix
    · intro h
      rcases List.infix_cons_iff.mp h with h | h
      · exact Or.inl h
      · exact Or.inr h

/-- Lower-casing twice is the same as lower-casing once. -/
theorem toLowerStr_idem (s : Str) : toLowerStr (toLowerStr s) = toLowerStr s := by
  unfold toLowerStr
  rw [List.map_map]
  exact List.map_congr_left (fun c _ => toLowerChar_idem c)

theorem fieldsAux_cons_sep (c : Char) (t : Str) (h : isSepChar c = true) :
    fieldsAux (c :: t) = ([], fieldsFunc t) := by
  simp [fieldsAux, fieldsFunc, h]

theorem fieldsAux_cons_nonsep (c : Char) (t : Str) (h : isSepChar c = false) :
    fieldsAux (c :: t) = (c :: (fieldsAux t).1, (fieldsAux t).2) := by
  simp [fieldsAux, h]

theorem fieldsFunc_cons_sep (c : Char) (t : Str) (h : isSepChar c = true) :
    fieldsFunc (c :: t) = fieldsFunc t := by
  rw [fieldsFunc, fieldsAux_cons_sep c t h]
  simp [fieldsFunc]

theorem fieldsAux_fst_nil_of_boundary (t : Str) (h : SepBoundary t) :
    (fieldsAux t).1 = [] := by
  rcases h with rfl | ⟨d, t2, rfl, hd⟩
  · rfl
  · rw [fieldsAux_cons_sep d t2 hd]

theorem fieldsFunc_all_sep (s : Str) (h : ∀ c ∈ s, isSepChar c = true) :
    fieldsFunc s = [] := by
  induction s with
  | nil => rfl
  | cons c t ih =>
    rw [fieldsFunc_cons_sep c t (h c (by simp))]
    exact ih (fun x hx => h x (by simp [hx]))

theorem fieldsFunc_sep_append (s0 l : Str) (h : ∀ c ∈ s0, isSepChar c = true) :
    fieldsFunc (s0 ++ l) = fieldsFunc l := by
  induction s0 with
  | nil => rfl
  | cons c t ih =>
    rw [List.cons_append, fieldsFunc_cons_sep c (t ++ l) (h c (by simp))]
    exact ih (fun x hx => h x (by simp [hx]))

theorem fieldsAux_group_append (g : Str) (hns : ∀ c ∈ g, isSepChar c = false)
    (rest : Str) (hb : SepBoundary rest) :
    fieldsAux (g ++ rest) = (g, fieldsFunc rest) := by
  induction g with
  | nil =>
    have h1 := fieldsAux_fst_nil_of_boundary rest hb
    rw [List.nil_append]
    rw [fieldsFunc]
    rw [h1]
    simp [Prod.ext_iff, h1]
  | cons c t ih =>
    rw [List.cons_append, fieldsAux_cons_nonsep c (t ++ rest) (hns c (by simp)),
      ih (fun x hx => hns x (by simp [hx]))]

theorem fieldsFunc_group_append (g : Str) (hg : g ≠ [])
    (hns : ∀ c ∈ g, isSepChar c = false) (rest : Str) (hb : SepBoundary rest) :
    fieldsFunc (g ++ rest) = g :: fieldsFunc rest := by
  rw [fieldsFunc, fieldsAux_group_append g hns rest hb]
  simp [hg]

theorem interleaves_cons_sep (c : Char) (s : Str) (gs : List Str)
    (hc : isSepChar c = true) (h : Interleaves s gs) :
    Interleaves (c :: s) gs := by
  cases gs with
  | nil =>
    intro x hx
    rcases List.mem_cons.mp hx with rfl | hx
    · exact hc
    · exact h x hx
  | cons g gs =>
    obtain ⟨s0, rest, hs0, hg, hgs, hb, rfl, htail⟩ := h
    exact ⟨c :: s0, rest,
      fun x hx => by rcases List.mem_cons.mp hx with rfl | hx
                     · exact hc
                     · exact hs0 x hx,
      hg, hgs, hb, by simp, htail⟩

/-- Every string decomposes, in the declarative sense, into the fields
the splitter computes. -/
theorem interleaves_fieldsFunc (s : Str) : Interleaves s (fieldsFunc s) := by
  induction s with
  | nil => exact fun c hc => absurd hc (List.not_mem_nil c)
  | cons c t ih =>
    rcases hc : isSepChar c with _ | _
    · -- the head is not a separator
      by_cases hb : SepBoundary t
      · have hf : fieldsFunc (c :: t) = [c] :: fieldsFunc t := by
          have : (c :: t : Str) = [c] ++ t := rfl
          rw [this, fieldsFunc_group_append [c] (by simp)
            (fun x hx => by simpa using List.mem_singleton.mp hx ▸ hc) t hb]
        rw [hf]
        exact ⟨[], t, by simp, by simp, fun x hx => by simpa using List.mem_singleton.mp hx ▸ hc,
          hb, by simp, ih⟩
      · -- t starts with a non-separator character
        obtain ⟨d, t2, rfl, hd⟩ : ∃ d t2, t = d :: t2 ∧ isSepChar d = false := by
          cases t with
          | nil => exact absurd (Or.inl rfl) hb
          | cons d t2 =>
            rcases hd : isSepChar d with _ | _
            · exact ⟨d, t2, rfl, hd⟩
            · exact absurd (Or.inr ⟨d, t2, rfl, hd⟩) hb
        have hft : fieldsFunc (d :: t2) = (d :: (fieldsAux t2).1) :: (fieldsAux t2).2 := by
          rw [fieldsFunc, fieldsAux_cons_nonsep d t2 hd]
          simp
        rw [hft] at ih
        obtain ⟨s0, rest, hs0, _, hgns, hbrest, heq, htail⟩ := ih
        have hs0nil : s0 = [] := by
          cases s0 with
          | nil => rfl
          | cons x s0' =>
            have hx : x = d := by
              have := heq
              simp only [List.cons_append, List.cons.injEq] at this
              exact this.1.symm
            have := hs0 x (by simp)
            rw [hx, hd] at this
            exact absurd this (by simp)
        subst hs0nil
        simp only [List.nil_append] at heq
        have hfc : fieldsFunc (c :: d :: t2) =
            (c :: d :: (fieldsAux t2).1) :: (fieldsAux t2).2 := by
          rw [fieldsFunc, fieldsAux_cons_nonsep c (d :: t2) hc,
            fieldsAux_cons_nonsep d t2 hd]
          simp
        rw [hfc]
        refine ⟨[], rest, by simp, by simp, ?_, hbrest, ?_, htail⟩
        · intro x hx
          rcases List.mem_cons.mp hx with rfl | hx
          · exact hc
          · exact hgns x hx
        · simpa using heq
    · -- the head is a separator
      rw [fieldsFunc_cons_sep c t hc]
      exact interleaves_cons_sep c t (fieldsFunc t) hc ih

/-- The declarative decomposition is unique: it always matches the
computed fields. -/
theorem fieldsFunc_of_interleaves (s : Str) (gs : List Str)
    (h : Interleaves s gs) : fieldsFunc s = gs := by
  induction gs generalizing s with
  | nil => exact fieldsFunc_all_sep s h
  | cons g gs ih =>
    obtain ⟨s0, rest, hs0, hg, hgs, hb, rfl, htail⟩ := h
    rw [List.append_assoc, fieldsFunc_sep_append s0 (g ++ rest) hs0,
      fieldsFunc_group_append g hg hgs rest hb, ih rest htail]

theorem isSepChar_eq_true_iff (c : Char) :
    isSepChar c = true ↔ c.toNat = 58 ∨ c.toNat = 45 := by
  unfold isSepChar
  rw [Bool.or_eq_true, beq_iff_eq, beq_iff_eq, char_eq_iff_toNat, char_eq_iff_toNat]
  have hcolon : (':').toNat = 58 := rfl
  have hdash : ('-').toNat = 45 := rfl
  rw [hcolon, hdash]

theorem isSepChar_toLowerChar (c : Char) :
    isSepChar (toLowerChar c) = isSepChar c := by
  have h3 := toLowerChar_toNat c
  by_cases hu : 65 ≤ c.toNat ∧ c.toNat ≤ 90
  · rw [if_pos hu] at h3
    have hs : isSepChar c = false := by
      rcases hb : isSepChar c with _ | _
      · rfl
      · exact absurd ((isSepChar_eq_true_iff c).mp hb) (by omega)
    have hs2 : isSepChar (toLowerChar c) = false := by
      rcases hb : isSepChar (toLowerChar c) with _ | _
      · rfl
      · exact absurd ((isSepChar_eq_true_iff _).mp hb) (by omega)
    rw [hs, hs2]
  · rw [if_neg hu] at h3
    have he : toLowerChar c = c := (char_eq_iff_toNat _ _).mpr h3
    rw [he]

theorem isHexDigitGo_eq_true_iff (c : Char) :
    isHexDigitGo c = true ↔
      (48 ≤ c.toNat ∧ c.toNat ≤ 57) ∨ (97 ≤ c.toNat ∧ c.toNat ≤ 102) ∨
        (65 ≤ c.toNat ∧ c.toNat ≤ 70) := by
  unfold isHexDigitGo
  simp only [Bool.not_eq_true', Bool.and_eq_false_iff, Bool.or_eq_false_iff,
    decide_eq_false_iff_not, not_lt]
  omega

theorem isHexDigitGo_toLowerChar (c : Char) (h : isHexDigitGo c = true) :
    isHexDigitGo (toLowerChar c) = true := by
  rw [isHexDigitGo_eq_true_iff] at h ⊢
  rw [toLowerChar_toNat]
  split_ifs <;> omega

theorem toLowerStr_eq_nil_iff (s : Str) : toLowerStr s = [] ↔ s = [] := by
  unfold toLowerStr
  exact List.map_eq_nil_iff

theorem fieldsAux_toLower (s : Str) :
    fieldsAux (toLowerStr s) =
      (toLowerStr (fieldsAux s).1, (fieldsAux s).2.map toLowerStr) := by
  induction s with
  | nil => rfl
  | cons c t ih =>
    have hff : fieldsFunc (toLowerStr t) = (fieldsFunc t).map toLowerStr := by
      rw [fieldsFunc, fieldsFunc, ih]
      by_cases he : (fieldsAux t).1 = []
      · simp [he, toLowerStr]
      · have hne : toLowerStr (fieldsAux t).1 ≠ [] := by
          rw [Ne, toLowerStr_eq_nil_iff]; exact he
        simp [List.isEmpty_iff, he, hne]
    show fieldsAux (toLowerChar c :: toLowerStr t) = _
    rcases h : isSepChar c with _ | _
    · rw [fieldsAux_cons_nonsep _ _ (by rw [isSepChar_toLowerChar, h]),
        fieldsAux_cons_nonsep c t h, ih]
      rfl
    · rw [fieldsAux_cons_sep _ _ (by rw [isSepChar_toLowerChar, h]),
        fieldsAux_cons_sep c t h, hff]
      rfl

theorem fieldsFunc_toLower (s : Str) :
    fieldsFunc (toLowerStr s) = (fieldsFunc s).map toLowerStr := by
  rw [fieldsFunc, fieldsFunc, fieldsAux_toLower]
  by_cases he : (fieldsAux s).1 = []
  · simp [he, toLowerStr]
  · have hne : toLowerStr (fieldsAux s).1 ≠ [] := by
      rw [Ne, toLowerStr_eq_nil_iff]; exact he
    simp [List.isEmpty_iff, he, hne]

theorem eqFold_toLowerStr_left (a b : Str) :
    eqFold (toLowerStr a) b = eqFold a b := by
  unfold eqFold
  rw [toLowerStr_idem]

/-- Lower-casing a valid MAC yields a valid MAC. -/
theorem isValidMAC_toLowerStr (m : Str) (h : isValidMAC m = true) :
    isValidMAC (toLowerStr m) = true := by
  unfold isValidMAC at h ⊢
  split at h
  case isTrue => simp at h
  case isFalse h1 =>
    split at h
    case isTrue => simp at h
    case isFalse h2 =>
      have hcond : ¬((toLowerStr m == []) || eqFold (toLowerStr m) notAvailable) = true := by
        intro hx
        apply h1
        rcases Bool.or_eq_true _ _ |>.mp hx with hx | hx
        · rw [beq_iff_eq, toLowerStr_eq_nil_iff] at hx
          simp [hx]
        · rw [eqFold_toLowerStr_left] at hx
          simp [hx]
      rw [if_neg hcond]
      have hlen : ¬((fieldsFunc (toLowerStr m)).length != 6) = true := by
        rw [fieldsFunc_toLower, List.length_map]
        exact h2
      rw [if_neg hlen]
      rw [fieldsFunc_toLower, List.all_map]
      rw [List.all_eq_true] at h ⊢
      intro part hp
      have hh := h part hp
      show (List.length (toLowerStr part) == 2 && List.all (toLowerStr part) isHexDigitGo) = true
      rw [Bool.and_eq_true] at hh ⊢
      constructor
      · show ((toLowerStr part).length == 2) = true
        rw [toLowerStr, List.length_map]
        exact hh.1
      · show (toLowerStr part).all isHexDigitGo = true
        rw [toLowerStr, List.all_map, List.all_eq_true]
        intro c hc
        exact isHexDigitGo_toLowerChar c (List.all_eq_true.mp hh.2 c hc)

theorem intercalate_nil (sep : Str) : List.intercalate sep [] = [] := rfl

theorem intercalate_cons_flatMap (sep x : Str) (xs : List Str) :
    List.intercalate sep (x :: xs) = x ++ xs.flatMap (fun e => sep ++ e) := by
  induction xs generalizing x with
  | nil => simp [List.intercalate]
  | cons y ys ih =>
    have h1 : List.intercalate sep (x :: y :: ys) = x ++ sep ++ List.intercalate sep (y :: ys) := by
      simp [List.intercalate, List.intersperse]
    rw [h1, ih y]
    simp [List.flatMap_cons]

theorem appendErr_nil (e : Str) : appendErr [] e = e := rfl

theorem appendErr_ne_nil (a e : Str) (ha : a ≠ []) :
    appendErr a e = a ++ ("; ".toList) ++ e := by
  unfold appendErr
  rw [if_neg (by simpa using ha)]

theorem foldl_appendErr_of_ne_nil (es : List Str) (a : Str) (ha : a ≠ []) :
    es.foldl appendErr a = a ++ es.flatMap (fun e => ("; ".toList) ++ e) := by
  induction es generalizing a with
  | nil => simp
  | cons x xs ih =>
    rw [List.foldl_cons, appendErr_ne_nil a x ha,
      ih (a ++ ("; ".toList) ++ x) (by simp [ha])]
    simp [List.flatMap_cons, List.append_assoc]

/-- The accumulating error append equals joining by a semicolon after
dropping the leading empty texts. -/
theorem foldl_appendErr_eq (es : List Str) :
    es.foldl appendErr [] =
      List.intercalate ("; ".toList) (es.dropWhile (fun e => e == [])) := by
  induction es with
  | nil => rfl
  | cons e es ih =>
    by_cases he : e = []
    · subst he
      rw [List.foldl_cons, appendErr_nil, List.dropWhile_cons_of_pos (by simp)]
      exact ih
    · rw [List.foldl_cons, appendErr_nil, List.dropWhile_cons_of_neg (by simpa using he),
        intercalate_cons_flatMap]
      exact foldl_appendErr_of_ne_nil es e he

/-- The per-condition accumulation in firmware_status.go equals the
declarative join of the formatted condition texts. -/
theorem hostStep_join (conds : List UpdateCondition) :
    conds.foldl (fun acc c => appendErr acc (condText c.messageID c.message)) [] =
      specJoinConds conds := by
  rw [specJoinConds, ← foldl_appendErr_eq, List.foldl_map]

/-- The conditional combination of host- and target-level error texts in
the code equals the declarative join omitting empty parts. -/
theorem combine_eq_specCombine (a b : Str) :
    (if b != [] then appendErr a b else a) = specCombine a b := by
  unfold specCombine
  by_cases hb : b = [] <;> by_cases ha : a = []
  · subst hb; subst ha; rfl
  · subst hb
    rw [if_neg (by simp), List.filter_cons_of_pos (by simpa using ha),
      List.filter_cons_of_neg (by simp), List.filter_nil, intercalate_cons_flatMap]
    simp
  · subst ha
    rw [if_pos (by simpa using hb), appendErr_nil,
      List.filter_cons_of_neg (by simp), List.filter_cons_of_pos (by simpa using hb),
      List.filter_nil, intercalate_cons_flatMap]
    simp
  · rw [if_pos (by simpa using hb), appendErr_ne_nil a b ha,
      List.filter_cons_of_pos (by simpa using ha),
      List.filter_cons_of_pos (by simpa using hb), List.filter_nil,
      intercalate_cons_flatMap]
    simp [List.flatMap_cons, List.append_assoc]

/-- C1: for every (host, target) round, the record's error text is the
host-level and target-level error joined by a semicolon omitting empty
parts; the final status is error when that combination is non-empty,
else in-progress when either flag is set, else idle; and the observed
version is the literal placeholder whenever the inventory fetch failed
or returned an empty version. -/
theorem c1_status_and_version (host target rv hostErr : Str) (hostFlag : Bool)
    (tfetch : Except Str FirmwareInventory) :
    (inferPair host target rv hostErr hostFlag tfetch).error =
        specCombine hostErr (targetStep tfetch).1 ∧
    (inferPair host target rv hostErr hostFlag tfetch).status =
        (if specCombine hostErr (targetStep tfetch).1 ≠ [] then ("error".toList)
         else if hostFlag ∨ (targetStep tfetch).2.2 = true then ("in-progress".toList)
         else ("idle".toList)) ∧
    (((∃ e, tfetch = Except.error e) ∨
        (∃ inv, tfetch = Except.ok inv ∧ inv.version = [])) →
      (inferPair host target rv hostErr hostFlag tfetch).observedVersion =
        ("(unknown)".toList)) := by
  refine ⟨?_, ?_, ?_⟩
  · show (if (targetStep tfetch).1 != [] then appendErr hostErr (targetStep tfetch).1
        else hostErr) = _
    exact combine_eq_specCombine hostErr (targetStep tfetch).1
  · show (if (if (targetStep tfetch).1 != [] then appendErr hostErr (targetStep tfetch).1
          else hostErr) != [] then ("error".toList)
        else if hostFlag || (targetStep tfetch).2.2 then ("in-progress".toList)
        else ("idle".toList)) = _
    rw [combine_eq_specCombine hostErr (targetStep tfetch).1]
    split_ifs <;> simp_all [Bool.or_eq_true]
  · rintro (⟨e, rfl⟩ | ⟨inv, rfl, hv⟩)
    · rfl
    · show (if inv.version == [] then ("(unknown)".toList) else inv.version) = _
      rw [if_pos (by simpa using hv)]

/-- C1 witness: with a failing inventory fetch the observed version is
the literal placeholder. -/
theorem c1_witness :
    (inferPair ("h".toList) ("t".toList) [] [] false
        (Except.error ("boom".toList))).observedVersion = ("(unknown)".toList) :=
  (c1_status_and_version ("h".toList) ("t".toList) [] [] false
    (Except.error ("boom".toList))).2.2 (Or.inl ⟨("boom".toList), rfl⟩)

/-- C2 counterexample: a snapshot with ABSENT health and one condition.
The claim's host-level step (conditions collected only when health is
present and not OK) leaves the error text empty, but the code collects
the condition, because it only tests that the lower-cased health differs
from the string ok. -/
theorem c2_counterexample :
    hostStep (some ⟨[], [], [⟨("boom".toList), [], [], []⟩]⟩) ≠
      specHostStepClaim ⟨[], [], [⟨("boom".toList), [], [], []⟩]⟩ := by
  decide

/-- C2 (amended): for every successfully fetched update-service snapshot,
whenever health is not OK case-insensitively — including when health is
absent — all condition entries are concatenated into the host-level
error text, formatted with the messageId when present, joined by a
semicolon (empty formatted entries at the front are skipped), and state
is not consulted; otherwise, when health is OK and state is updating
case-insensitively, the host-level in-progress flag is set. -/
theorem c2_host_step_amended (us : UpdateServiceStatus) :
    hostStep (some us) = hostStepAmended us := by
  have hok : eqFold us.health ("OK".toList) = (toLowerStr us.health == ("ok".toList)) := by
    rw [eqFold, show toLowerStr ("OK".toList) = ("ok".toList) from by decide]
  have hupd : eqFold us.state ("updating".toList) =
      (toLowerStr us.state == ("updating".toList)) := by
    rw [eqFold, show toLowerStr ("updating".toList) = ("updating".toList) from by decide]
  show (if toLowerStr us.health != ("ok".toList) then
      (us.conditions.foldl (fun acc c => appendErr acc (condText c.messageID c.message)) [],
        false)
    else if toLowerStr us.state == ("updating".toList) then ([], true)
    else ([], false)) = _
  rw [hostStepAmended, hok, hupd, hostStep_join]
  rfl

theorem hex_not_sep (c : Char) (h : isHexDigitGo c = true) : isSepChar c = false := by
  rcases hb : isSepChar c with _ | _
  · rfl
  · have h1 := (isSepChar_eq_true_iff c).mp hb
    have h2 := (isHexDigitGo_eq_true_iff c).mp h
    omega

/-- A uniform interleaving with one separator character is an interleaving
in the declarative sense. -/
theorem interleaves_intercalate (sep : Char) (hsep : isSepChar sep = true)
    (gs : List Str) (hall : ∀ g ∈ gs, g ≠ [] ∧ ∀ c ∈ g, isSepChar c = false) :
    Interleaves (List.intercalate [sep] gs) gs := by
  induction gs with
  | nil =>
    intro c hc
    rw [intercalate_nil] at hc
    exact absurd hc (List.not_mem_nil c)
  | cons g gs ih =>
    cases gs with
    | nil =>
      have hg := hall g (by simp)
      have h1 : List.intercalate [sep] [g] = g := by
        simp [intercalate_cons_flatMap]
      rw [h1]
      exact ⟨[], [], by simp, hg.1, hg.2, Or.inl rfl, by simp,
        fun c hc => absurd hc (List.not_mem_nil c)⟩
    | cons g2 gs2 =>
      have hg := hall g (by simp)
      have h1 : List.intercalate [sep] (g :: g2 :: gs2) =
          g ++ sep :: List.intercalate [sep] (g2 :: gs2) := by
        rw [intercalate_cons_flatMap, intercalate_cons_flatMap]
        simp [List.flatMap_cons, List.append_assoc]
      rw [h1]
      refine ⟨[], sep :: List.intercalate [sep] (g2 :: gs2), by simp, hg.1, hg.2,
        Or.inr ⟨sep, _, rfl, hsep⟩, by simp, ?_⟩
      exact interleaves_cons_sep sep _ _ hsep
        (ih (fun x hx => hall x (by simp [hx])))

/-- C3 counterexample: the string aa:bb:cc:dd:ee-ff mixes both separator
characters, so it does not decompose with a uniform separator, yet the
code accepts it because FieldsFunc splits on either character
indiscriminately. -/
theorem c3_counterexample :
    isValidMAC ("aa:bb:cc:dd:ee-ff".toList) = true ∧
      ¬ macUniform ("aa:bb:cc:dd:ee-ff".toList) := by
  constructor
  · decide
  · rintro ⟨sep, hsep, gs, hlen, hhex, heq⟩
    have hsepchar : isSepChar sep = true := by
      rcases hsep with rfl | rfl <;> decide
    have hI : Interleaves ("aa:bb:cc:dd:ee-ff".toList) gs := by
      rw [heq]
      refine interleaves_intercalate sep hsepchar gs (fun g hg => ⟨?_, ?_⟩)
      · intro hnil
        have := (hhex g hg).1
        rw [hnil] at this
        simp at this
      · exact fun c hc => hex_not_sep c ((hhex g hg).2 c hc)
    have hgs : gs = fieldsFunc ("aa:bb:cc:dd:ee-ff".toList) :=
      (fieldsFunc_of_interleaves _ gs hI).symm
    rw [hgs, show fieldsFunc ("aa:bb:cc:dd:ee-ff".toList) =
      [("aa".toList), ("bb".toList), ("cc".toList), ("dd".toList), ("ee".toList),
        ("ff".toList)] from by decide] at heq
    rcases hsep with rfl | rfl <;> exact absurd heq (by decide)

/-- C3 (amended): isValidMAC accepts exactly the strings that are not the
literal Not Available case-insensitively and that decompose into exactly
6 groups of exactly 2 hexadecimal characters separated by non-empty runs
of colon or dash characters — the separators need not be uniform, and
separator runs may also appear at the start or the end.  The empty
string, strings with a number of groups different from 6, and strings
with non-hexadecimal characters in a group are rejected. -/
theorem c3_isValidMAC_amended (s : Str) :
    isValidMAC s = true ↔
      eqFold s notAvailable = false ∧
        ∃ gs : List Str, Interleaves s gs ∧ gs.length = 6 ∧ ∀ g ∈ gs, hexGroup g := by
  constructor
  · intro h
    unfold isValidMAC at h
    split at h
    case isTrue => simp at h
    case isFalse h1 =>
      split at h
      case isTrue => simp at h
      case isFalse h2 =>
        have hNA : eqFold s notAvailable = false := by
          rcases hb : eqFold s notAvailable with _ | _
          · rfl
          · exact absurd (by simp [hb] : (s == [] || eqFold s notAvailable) = true) h1
        refine ⟨hNA, fieldsFunc s, interleaves_fieldsFunc s, by simpa using h2, ?_⟩
        intro g hg
        have hh := List.all_eq_true.mp h g hg
        rw [Bool.and_eq_true] at hh
        exact ⟨by simpa using hh.1, fun c hc => List.all_eq_true.mp hh.2 c hc⟩
  · rintro ⟨hNA, gs, hI, hlen, hhex⟩
    have hff : fieldsFunc s = gs := fieldsFunc_of_interleaves s gs hI
    have hs : s ≠ [] := by
      rintro rfl
      rw [show fieldsFunc ([] : Str) = [] from rfl] at hff
      rw [← hff] at hlen
      simp at hlen
    unfold isValidMAC
    rw [if_neg (by simp [Bool.or_eq_true, hNA, beq_iff_eq, hs])]
    rw [if_neg (by simp [hff, hlen])]
    rw [hff, List.all_eq_true]
    intro g hg
    have hh := hhex g hg
    rw [Bool.and_eq_true]
    exact ⟨by simpa using hh.1, List.all_eq_true.mpr hh.2⟩

/-- C4: isBootable holds exactly when the lower-cased UEFI device path
contains one of the keywords pxe, ipv4, ipv6 or mac(, or some IPv4 entry
has a dhcp origin case-insensitively, or the MAC is non-empty and the
interface-enabled flag is absent or true; in particular a fully empty
record is not bootable, and a record whose only content is a MAC with
the flag explicitly false is not bootable. -/
theorem c4_isBootable_characterisation :
    (∀ n : EthernetInterface,
      isBootable n = true ↔
        ((∃ kw ∈ [("pxe".toList), ("ipv4".toList), ("ipv6".toList), ("mac(".toList)],
            kw <:+: toLowerStr n.uefiDevicePath) ∨
          (∃ a ∈ n.ipv4Addresses, eqFold a.origin ("dhcp".toList) = true) ∨
          (n.macAddress ≠ [] ∧
            (n.interfaceEnabled = none ∨ n.interfaceEnabled = some true)))) ∧
    isBootable ⟨[], [], none, [], [], []⟩ = false ∧
    isBootable ⟨[], [], some false, ("aa:bb:cc:dd:ee:ff".toList), [], []⟩ = false := by
  refine ⟨?_, by decide, by decide⟩
  intro n
  have hnorm : isBootable n =
      ((containsStr (toLowerStr n.uefiDevicePath) ("pxe".toList) ||
          containsStr (toLowerStr n.uefiDevicePath) ("ipv4".toList) ||
          containsStr (toLowerStr n.uefiDevicePath) ("ipv6".toList) ||
          containsStr (toLowerStr n.uefiDevicePath) ("mac(".toList)) ||
        n.ipv4Addresses.any (fun a => eqFold a.origin ("dhcp".toList)) ||
        (n.macAddress != [] &&
          (match n.interfaceEnabled with | none => true | some b => b))) := by
    simp only [isBootable]
    by_cases h1 : (containsStr (toLowerStr n.uefiDevicePath) ("pxe".toList) ||
        containsStr (toLowerStr n.uefiDevicePath) ("ipv4".toList) ||
        containsStr (toLowerStr n.uefiDevicePath) ("ipv6".toList) ||
        containsStr (toLowerStr n.uefiDevicePath) ("mac(".toList)) = true
    · rw [if_pos h1, h1]
      rfl
    · have h1f := Bool.not_eq_true _ |>.mp h1
      rw [if_neg h1]
      by_cases h2 : (n.ipv4Addresses.any (fun a => eqFold a.origin ("dhcp".toList))) = true
      · rw [if_pos h2, h1f, h2]
        rfl
      · have h2f := Bool.not_eq_true _ |>.mp h2
        rw [if_neg h2]
        by_cases h3 : (n.macAddress != [] &&
            (match n.interfaceEnabled with | none => true | some b => b)) = true
        · rw [if_pos h3, h1f, h2f, h3]
          rfl
        · have h3f := Bool.not_eq_true _ |>.mp h3
          rw [if_neg h3, h1f, h2f, h3f]
          rfl
  rw [hnorm]
  constructor
  · intro h
    rcases (Bool.or_eq_true _ _).mp h with h | h
    · rcases (Bool.or_eq_true _ _).mp h with h | h
      · left
        simp only [Bool.or_eq_true] at h
        rcases h with ((h | h) | h) | h
        · exact ⟨("pxe".toList), by simp, (containsStr_iff_substring _ _).mp h⟩
        · exact ⟨("ipv4".toList), by simp, (containsStr_iff_substring _ _).mp h⟩
        · exact ⟨("ipv6".toList), by simp, (containsStr_iff_substring _ _).mp h⟩
        · exact ⟨("mac(".toList), by simp, (containsStr_iff_substring _ _).mp h⟩
      · exact Or.inr (Or.inl (List.any_eq_true.mp h))
    · rw [Bool.and_eq_true] at h
      refine Or.inr (Or.inr ⟨by simpa using h.1, ?_⟩)
      rcases he : n.interfaceEnabled with _ | b
      · exact Or.inl rfl
      · have h2 := h.2
        rw [he] at h2
        cases b
        · simp at h2
        · exact Or.inr rfl
  · intro h
    rcases h with ⟨kw, hkw, hinf⟩ | ⟨a, ha, hd⟩ | ⟨hmac, hen⟩
    · refine (Bool.or_eq_true _ _).mpr (Or.inl ((Bool.or_eq_true _ _).mpr (Or.inl ?_)))
      have hc := (containsStr_iff_substring (toLowerStr n.uefiDevicePath) kw).mpr hinf
      simp only [Bool.or_eq_true]
      simp only [List.mem_cons, List.not_mem_nil, or_false] at hkw
      rcases hkw with rfl | rfl | rfl | rfl
      · exact Or.inl (Or.inl (Or.inl hc))
      · exact Or.inl (Or.inl (Or.inr hc))
      · exact Or.inl (Or.inr hc)
      · exact Or.inr hc
    · exact (Bool.or_eq_true _ _).mpr
        (Or.inl ((Bool.or_eq_true _ _).mpr (Or.inr (List.any_eq_true.mpr ⟨a, ha, hd⟩))))
    · refine (Bool.or_eq_true _ _).mpr (Or.inr ((Bool.and_eq_true _ _).mpr
        ⟨by simpa using hmac, ?_⟩))
      rcases hen with he | he <;> rw [he]

theorem taskFoldStep_none (out : List Str) : taskFoldStep out none = out := rfl

theorem taskFoldStep_some (out : List Str) (t : RfTask) :
    taskFoldStep out (some t) = if codeTaskIncluded t then out ++ [t.id] else out := by
  simp only [taskFoldStep]
  unfold codeTaskIncluded
  by_cases h1 : (toLowerStr t.taskState == ("running".toList) ||
      toLowerStr t.taskState == ("starting".toList) ||
      toLowerStr t.taskState == ("inprogress".toList) ||
      toLowerStr t.taskState == ("queued".toList)) = true
  · rw [if_pos h1, h1]
    by_cases h2 : (containsStr (toLowerStr t.name) ("update".toList) ||
        containsStr (toLowerStr t.name) ("firmware".toList) ||
        containsStr (toLowerStr t.message) ("update".toList) ||
        containsStr (toLowerStr t.message) ("firmware".toList)) = true
    · rw [if_pos h2, h2]
      rfl
    · have h2f := Bool.not_eq_true _ |>.mp h2
      rw [if_neg h2, h2f]
      by_cases h3 : (toLowerStr t.name == [] && toLowerStr t.message == []) = true
      · rw [if_pos h3, h3]
        rfl
      · have h3f := Bool.not_eq_true _ |>.mp h3
        rw [if_neg h3, h3f]
        rfl
  · have h1f := Bool.not_eq_true _ |>.mp h1
    rw [if_neg h1, h1f]
    rfl

theorem getActive_fold (members : List (Option RfTask)) (acc : List Str) :
    members.foldl taskFoldStep acc =
      acc ++ members.flatMap (fun m =>
        match m with
        | none => []
        | some t => if codeTaskIncluded t then [t.id] else []) := by
  induction members generalizing acc with
  | nil => simp
  | cons m ms ih =>
    rcases m with _ | t
    · rw [List.foldl_cons, taskFoldStep_none, ih acc, List.flatMap_cons]
      rfl
    · rw [List.foldl_cons, taskFoldStep_some acc t, List.flatMap_cons]
      by_cases hq : codeTaskIncluded t = true
      · rw [if_pos hq, ih (acc ++ [t.id])]
        show _ = acc ++ ((if codeTaskIncluded t = true then [t.id] else []) ++ _)
        rw [if_pos hq]
        simp
      · rw [if_neg hq, ih acc]
        show _ = acc ++ ((if codeTaskIncluded t = true then [t.id] else []) ++ _)
        rw [if_neg hq]
        rfl

/-- The result of a successful task-collection fetch, in closed form. -/
theorem getActiveUpdateTasks_eq (members : List (Option RfTask)) :
    GetActiveUpdateTasks (some members) =
      some (members.flatMap (fun m =>
        match m with
        | none => []
        | some t => if codeTaskIncluded t then [t.id] else [])) := by
  show some _ = some _
  rw [getActive_fold members []]
  rfl

theorem contains_four (x A B C D : Str) :
    ([A, B, C, D].contains x) = (x == A || x == B || x == C || x == D) := by
  simp only [List.contains, List.elem]
  cases hA : x == A <;> cases hB : x == B <;> cases hC : x == C <;> cases hD : x == D <;>
    simp [hA, hB, hC, hD]

/-- The loop-body predicate agrees with the claim's wording of a
qualifying task. -/
theorem codeTaskIncluded_eq_spec (t : RfTask) :
    codeTaskIncluded t = specTaskQualifies t := by
  unfold codeTaskIncluded specTaskQualifies
  rw [contains_four]
  have hkw : ([("update".toList), ("firmware".toList)].any (fun kw =>
      containsStr (toLowerStr t.name) kw || containsStr (toLowerStr t.message) kw)) =
      (containsStr (toLowerStr t.name) ("update".toList) ||
        containsStr (toLowerStr t.name) ("firmware".toList) ||
        containsStr (toLowerStr t.message) ("update".toList) ||
        containsStr (toLowerStr t.message) ("firmware".toList)) := by
    rw [Bool.eq_iff_iff]
    simp only [List.any_cons, List.any_nil, Bool.or_eq_true, Bool.or_false]
    tauto
  have hx : ∀ s : Str, (toLowerStr s == []) = s.isEmpty := by
    intro s
    rw [Bool.eq_iff_iff, beq_iff_eq, toLowerStr_eq_nil_iff, List.isEmpty_iff]
  rw [hkw, hx, hx]

/-- C7: the task list is consulted only while the host-level flag is
still false (a host already marked in progress yields the same records
for any task oracle); on a successful fetch the flag is raised exactly
when some successfully fetched task has an active state and either an
update/firmware keyword in its name or message or an empty name and
message; a task-list fetch failure contributes nothing. -/
theorem c7_task_gating :
    (∀ (host rv : Str) (usFetch : Option UpdateServiceStatus)
        (tf1 tf2 : Option (List (Option RfTask))) (targets : List Str)
        (invF : Str → Except Str FirmwareInventory),
      (hostStep usFetch).2 = true →
        inferHost host rv usFetch tf1 targets invF =
          inferHost host rv usFetch tf2 targets invF) ∧
    (∀ (flag : Bool) (members : List (Option RfTask)),
      hostFlagWithTasks flag (some members) =
        (flag || members.any (fun m =>
          match m with
          | some t => specTaskQualifies t
          | none => false))) ∧
    (∀ flag : Bool, hostFlagWithTasks flag none = flag) := by
  refine ⟨?_, ?_, ?_⟩
  · intro host rv usFetch tf1 tf2 targets invF h
    simp only [inferHost]
    rw [h]
    rfl
  · intro flag members
    rcases flag with _ | _
    · show hostFlagWithTasks false (some members) = _
      unfold hostFlagWithTasks
      rw [if_neg (by simp), getActiveUpdateTasks_eq]
      rcases hAny : members.any (fun m =>
          match m with
          | some t => specTaskQualifies t
          | none => false) with _ | _
      · have hnil : members.flatMap (fun m =>
            match m with
            | none => []
            | some t => if codeTaskIncluded t then [t.id] else []) = [] := by
          rw [List.flatMap_eq_nil_iff]
          intro m hm
          rcases m with _ | t
          · rfl
          · have hfalse : specTaskQualifies t = false := by
              simpa using List.any_eq_false.mp hAny (some t) hm
            show (if codeTaskIncluded t = true then [t.id] else ([] : List Str)) = []
            rw [if_neg (by rw [codeTaskIncluded_eq_spec, hfalse]; simp)]
        rw [hnil]
        rfl
      · obtain ⟨m, hm, hq⟩ := List.any_eq_true.mp hAny
        rcases m with _ | t
        · simp at hq
        · have hq2 : specTaskQualifies t = true := by simpa using hq
          have hin : t.id ∈ members.flatMap (fun m =>
              match m with
              | none => []
              | some t => if codeTaskIncluded t then [t.id] else []) := by
            rw [List.mem_flatMap]
            refine ⟨some t, hm, ?_⟩
            show t.id ∈ (if codeTaskIncluded t = true then [t.id] else ([] : List Str))
            rw [if_pos (by rw [codeTaskIncluded_eq_spec, hq2])]
            simp
          have hlen : 0 < (members.flatMap (fun m =>
              match m with
              | none => []
              | some t => if codeTaskIncluded t then [t.id] else [])).length :=
            List.length_pos.mpr (List.ne_nil_of_mem hin)
          show (if 0 < (members.flatMap (fun m =>
              match m with
              | none => []
              | some t => if codeTaskIncluded t then [t.id] else [])).length
            then true else false) = (false || true)
          rw [if_pos hlen]
          rfl
    · rfl
  · intro flag
    rcases flag with _ | _ <;> rfl

/-- C7 witness: a host whose update service already reports updating
produces identical records under two different task oracles. -/
theorem c7_witness :
    inferHost ("h".toList) [] (some ⟨("OK".toList), ("Updating".toList), []⟩)
        (some [some ⟨("1".toList), [], ("Running".toList), []⟩]) [("t".toList)]
        (fun _ => Except.error []) =
      inferHost ("h".toList) [] (some ⟨("OK".toList), ("Updating".toList), []⟩)
        none [("t".toList)] (fun _ => Except.error []) :=
  c7_task_gating.1 ("h".toList) [] (some ⟨("OK".toList), ("Updating".toList), []⟩)
    (some [some ⟨("1".toList), [], ("Running".toList), []⟩]) none [("t".toList)]
    (fun _ => Except.error []) (by decide)

theorem find?_of_least {α : Type} (p : α → Bool) (l : List α) (i : Nat)
    (hi : i < l.length) (hp : p (l.get ⟨i, hi⟩) = true)
    (hmin : ∀ j (hj : j < i), p (l.get ⟨j, Nat.lt_trans hj hi⟩) = false) :
    l.find? p = some (l.get ⟨i, hi⟩) := by
  induction l generalizing i with
  | nil => simp at hi
  | cons a t ih =>
    cases i with
    | zero =>
      have hp2 : p a = true := hp
      rw [List.find?_cons_of_pos _ hp2]
      rfl
    | succ n =>
      have ha : p a = false := hmin 0 (Nat.succ_pos n)
      rw [List.find?_cons_of_neg _ (by simp [ha])]
      exact ih n (by simpa using hi) hp (fun j hj => hmin (j + 1) (by omega))

theorem collectNics_map_some (nics : List EthernetInterface) :
    collectNics (nics.map Option.some) = some nics := by
  induction nics with
  | nil => rfl
  | cons n t ih =>
    show collectNics (some n :: t.map Option.some) = _
    unfold collectNics
    rw [ih]

theorem collectNics_none (members : List (Option EthernetInterface))
    (h : none ∈ members) : collectNics members = none := by
  induction members with
  | nil => exact absurd h (List.not_mem_nil none)
  | cons m t ih =>
    rcases m with _ | n
    · rfl
    · have hmem : none ∈ t := by
        rcases List.mem_cons.mp h with hx | hx
        · exact absurd hx.symm (by simp)
        · exact hx
      show collectNics (some n :: t) = none
      unfold collectNics
      rw [ih hmem]

theorem selectMACs_eq_nil_of_no_valid (nics : List EthernetInterface)
    (h : ∀ n ∈ nics, isValidMAC n.macAddress = false) : selectMACs nics = [] := by
  unfold selectMACs
  have hfil : nics.filter (fun nic => isValidMAC nic.macAddress && isBootable nic) = [] := by
    rw [List.filter_eq_nil_iff]
    intro n hn
    rw [h n hn]
    simp
  have hfind : nics.find? (fun nic => isValidMAC nic.macAddress) = none := by
    rw [List.find?_eq_none]
    intro n hn
    rw [h n hn]
    simp
  rw [hfil, hfind]
  rfl

theorem processSystem_none_of_no_valid (sys : Str) (nics : List EthernetInterface)
    (h : ∀ n ∈ nics, isValidMAC n.macAddress = false) :
    processSystem (sys, some (nics.map Option.some)) = none := by
  simp only [processSystem, listEthernetInterfaces, collectNics_map_some]
  rw [selectMACs_eq_nil_of_no_valid nics h]
  rfl

/-- C5: when the bootable filter yields no MAC, the selection for the
system is exactly the first valid MAC in enumeration order, lower-cased;
and a system without any valid MAC is dropped from the result set while
the call still succeeds. -/
theorem c5_fallback_and_drop :
    (∀ (nics : List EthernetInterface) (i : Nat) (hi : i < nics.length),
      ((nics.filter (fun nic => isValidMAC nic.macAddress && isBootable nic)).map
        (fun nic => toLowerStr nic.macAddress)) = [] →
      isValidMAC (nics.get ⟨i, hi⟩).macAddress = true →
      (∀ j (hj : j < i), isValidMAC (nics.get ⟨j, Nat.lt_trans hj hi⟩).macAddress = false) →
      selectMACs nics = [toLowerStr (nics.get ⟨i, hi⟩).macAddress]) ∧
    (∀ (pre post : List SystemFetch) (sys : Str) (nics : List EthernetInterface),
      (∀ n ∈ nics, isValidMAC n.macAddress = false) →
      DiscoverAllBootableMACs (some (pre ++ (sys, some (nics.map Option.some)) :: post)) =
        Except.ok (pre.filterMap processSystem ++ post.filterMap processSystem)) := by
  constructor
  · intro nics i hi hempty hvalid hmin
    unfold selectMACs
    rw [hempty]
    rw [find?_of_least (fun nic => isValidMAC nic.macAddress) nics i hi hvalid hmin]
    rfl
  · intro pre post sys nics h
    simp only [DiscoverAllBootableMACs]
    rw [if_neg (by simp)]
    rw [List.filterMap_append, List.filterMap_cons,
      processSystem_none_of_no_valid sys nics h]

/-- C5 witness: a single valid but non-bootable NIC is selected through
the fallback, and a system whose only NIC has an invalid MAC is dropped
without an error. -/
theorem c5_witness :
    selectMACs [⟨[], [], some false, ("AA:BB:CC:DD:EE:FF".toList), [], []⟩] =
        [toLowerStr ("AA:BB:CC:DD:EE:FF".toList)] ∧
      DiscoverAllBootableMACs (some [(("s".toList),
          some ([(⟨[], [], none, ("Not Available".toList), [], []⟩ :
            EthernetInterface)].map Option.some))]) = Except.ok [] := by
  constructor
  · exact c5_fallback_and_drop.1
      [⟨[], [], some false, ("AA:BB:CC:DD:EE:FF".toList), [], []⟩] 0 (by decide)
      (by decide) (by decide) (fun j hj => absurd hj (Nat.not_lt_zero j))
  · exact c5_fallback_and_drop.2 [] [] ("s".toList)
      [⟨[], [], none, ("Not Available".toList), [], []⟩]
      (by intro n hn; rw [List.mem_singleton.mp hn]; decide)

/-- C8: the noSystems error occurs exactly when the systems collection
was fetched and is empty; and a NIC fetch failure inside one system's
enumeration drops only that system, leaving every other system
processed. -/
theorem c8_failure_modes :
    (∀ sysFetch : Option (List SystemFetch),
      DiscoverAllBootableMACs sysFetch = Except.error DiscoverError.noSystems ↔
        sysFetch = some []) ∧
    (∀ (pre post : List SystemFetch) (sys : Str)
        (members : List (Option EthernetInterface)), none ∈ members →
      DiscoverAllBootableMACs (some (pre ++ (sys, some members) :: post)) =
        Except.ok (pre.filterMap processSystem ++ post.filterMap processSystem)) := by
  constructor
  · intro sysFetch
    rcases sysFetch with _ | entries
    · show Except.error DiscoverError.transport = Except.error DiscoverError.noSystems ↔ _
      constructor
      · intro h
        exact absurd (Except.error.inj h) (by simp)
      · intro h
        exact absurd h (by simp)
    · show DiscoverAllBootableMACs (some entries) = _ ↔ _
      simp only [DiscoverAllBootableMACs]
      by_cases he : entries.isEmpty = true
      · rw [if_pos he]
        simp [List.isEmpty_iff.mp he]
      · rw [if_neg he]
        constructor
        · intro h
          exact absurd h (by simp)
        · intro h
          have : entries = [] := by simpa using h
          rw [this] at he
          exact absurd rfl he
  · intro pre post sys members h
    simp only [DiscoverAllBootableMACs]
    rw [if_neg (by simp)]
    have hproc : processSystem (sys, some members) = none := by
      simp only [processSystem, listEthernetInterfaces]
      rw [collectNics_none members h]
    rw [List.filterMap_append, List.filterMap_cons, hproc]

/-- C8 witness: an empty collection is exactly the noSystems error, and a
failing NIC fetch drops only the affected system. -/
theorem c8_witness :
    DiscoverAllBootableMACs (some ([] : List SystemFetch)) =
        Except.error DiscoverError.noSystems ∧
      DiscoverAllBootableMACs (some [(("s".toList), some [none])]) =
        Except.ok ([] : List SystemMACs) :=
  ⟨(c8_failure_modes.1 (some [])).mpr rfl,
    c8_failure_modes.2 [] [] ("s".toList) [none] (by simp)⟩

theorem selectMACs_mem (nics : List EthernetInterface) (m : Str)
    (h : m ∈ selectMACs nics) :
    ∃ nic : EthernetInterface,
      isValidMAC nic.macAddress = true ∧ m = toLowerStr nic.macAddress := by
  unfold selectMACs at h
  by_cases he : ((nics.filter (fun nic => isValidMAC nic.macAddress && isBootable nic)).map
      (fun nic => toLowerStr nic.macAddress)).isEmpty = true
  · rw [if_pos he] at h
    rcases hf : nics.find? (fun nic => isValidMAC nic.macAddress) with _ | nic
    · rw [hf] at h
      exact absurd h (List.not_mem_nil m)
    · rw [hf] at h
      have hm : m = toLowerStr nic.macAddress := by simpa using h
      have hv0 := List.find?_some hf
      have hv : isValidMAC nic.macAddress = true := hv0
      exact ⟨nic, hv, hm⟩
  · rw [if_neg he] at h
    obtain ⟨nic, hnic, hm⟩ := List.mem_map.mp h
    have hp := List.mem_filter.mp hnic
    rw [Bool.and_eq_true] at hp
    exact ⟨nic, hp.2.1, hm.symm⟩

/-- C10: every system entry in a successful discovery result carries a
non-empty MAC list, and every MAC in it is entirely lower-case and
valid; this holds for every gateway input. -/
theorem c10_discovery_invariant (sysFetch : Option (List SystemFetch))
    (res : List SystemMACs) (h : DiscoverAllBootableMACs sysFetch = Except.ok res) :
    ∀ s ∈ res, s.MACs ≠ [] ∧
      ∀ m ∈ s.MACs, toLowerStr m = m ∧ isValidMAC m = true := by
  rcases sysFetch with _ | entries
  · exact absurd h (by simp [DiscoverAllBootableMACs])
  · simp only [DiscoverAllBootableMACs] at h
    by_cases he : entries.isEmpty = true
    · rw [if_pos he] at h
      exact absurd h (by simp)
    · rw [if_neg he] at h
      have hres : res = entries.filterMap processSystem := (Except.ok.inj h).symm
      subst hres
      intro s hs
      obtain ⟨entry, _, hentry⟩ := List.mem_filterMap.mp hs
      unfold processSystem at hentry
      rcases hl : listEthernetInterfaces entry.2 with _ | nics
      · rw [hl] at hentry
        exact absurd hentry (by simp)
      · rw [hl] at hentry
        have hentry2 : (if (selectMACs nics).isEmpty = true then none
            else some (⟨entry.1, selectMACs nics⟩ : SystemMACs)) = some s := hentry
        by_cases hm : (selectMACs nics).isEmpty = true
        · rw [if_pos hm] at hentry2
          exact absurd hentry2 (by simp)
        · rw [if_neg hm] at hentry2
          have hsm : s.MACs = selectMACs nics := by
            rw [← Option.some.inj hentry2]
          constructor
          · rw [hsm]
            intro hx
            rw [hx] at hm
            exact hm rfl
          · intro m hmem
            rw [hsm] at hmem
            obtain ⟨nic, hvalid, rfl⟩ := selectMACs_mem nics m hmem
            exact ⟨toLowerStr_idem nic.macAddress,
              isValidMAC_toLowerStr nic.macAddress hvalid⟩

/-- C10 witness: a concrete discovery run whose single system yields one
lower-case valid MAC. -/
theorem c10_witness :
    (([("aa:bb:cc:dd:ee:ff".toList)] : List Str) ≠ [] ∧
      (toLowerStr ("aa:bb:cc:dd:ee:ff".toList) = ("aa:bb:cc:dd:ee:ff".toList) ∧
        isValidMAC ("aa:bb:cc:dd:ee:ff".toList) = true)) := by
  have happ := c10_discovery_invariant
    (some [(("s".toList), some ([(⟨[], [], none, ("AA:BB:CC:DD:EE:FF".toList), [], []⟩ :
      EthernetInterface)].map Option.some))])
    [⟨("s".toList), [("aa:bb:cc:dd:ee:ff".toList)]⟩] (by rfl)
    ⟨("s".toList), [("aa:bb:cc:dd:ee:ff".toList)]⟩ (by simp)
  exact ⟨happ.1, happ.2 ("aa:bb:cc:dd:ee:ff".toList) (by simp)⟩

theorem preflight_fold (e : Str) (invFetch : Str → Option FirmwareInventory)
    (targets : List Str) (b : Bool) (acc : List Str) :
    targets.foldl (preflightStep e invFetch) (b, acc) =
      (b && targets.all (fun t =>
        match invFetch t with
        | some fw => fw.version == e
        | none => false),
       acc ++ targets.flatMap (fun t =>
        match invFetch t with
        | some fw => [t ++ (": ".toList) ++ fw.version]
        | none => [])) := by
  induction targets generalizing b acc with
  | nil => simp
  | cons t ts ih =>
    rw [List.foldl_cons]
    rcases hft : invFetch t with _ | fw
    · have hstep : preflightStep e invFetch (b, acc) t = (false, acc) := by
        simp only [preflightStep, hft]
      rw [hstep, ih]
      rw [List.all_cons, List.flatMap_cons, hft]
      simp
    · have hstep : preflightStep e invFetch (b, acc) t =
          (b && (fw.version == e), acc ++ [t ++ (": ".toList) ++ fw.version]) := by
        simp only [preflightStep, hft]
      rw [hstep, ih]
      rw [List.all_cons, List.flatMap_cons, hft]
      simp [Bool.and_assoc, List.append_assoc]

theorem simpleUpdate_eval (e : Str) (targets : List Str)
    (invFetch : Str → Option FirmwareInventory) (he : e ≠ []) :
    SimpleUpdate e false targets invFetch =
      (if (targets.all fun t =>
            match invFetch t with
            | some fw => fw.version == e
            | none => false) = true ∧
          targets.flatMap (fun t =>
            match invFetch t with
            | some fw => [t ++ (": ".toList) ++ fw.version]
            | none => []) ≠ []
        then SimpleUpdateDecision.skipped (targets.flatMap (fun t =>
            match invFetch t with
            | some fw => [t ++ (": ".toList) ++ fw.version]
            | none => []))
        else SimpleUpdateDecision.posted) := by
  have hcond : (e != [] && !false) = true := by simp [bne_iff_ne, he]
  have h1 : SimpleUpdate e false targets invFetch =
      (if ((targets.foldl (preflightStep e invFetch) (true, [])).1 &&
          decide (0 < (targets.foldl (preflightStep e invFetch) (true, [])).2.length)) = true
        then SimpleUpdateDecision.skipped
          ((targets.foldl (preflightStep e invFetch) (true, [])).2)
        else SimpleUpdateDecision.posted) := by
    simp only [SimpleUpdate]
    rw [if_pos hcond]
  rw [h1, preflight_fold]
  simp only [Bool.true_and, List.nil_append]
  by_cases hA : (targets.all fun t =>
      match invFetch t with
      | some fw => fw.version == e
      | none => false) = true
  · by_cases hL : targets.flatMap (fun t =>
        match invFetch t with
        | some fw => [t ++ (": ".toList) ++ fw.version]
        | none => []) = []
    · rw [hL]
      rw [if_neg (by simp), if_neg (by simp)]
    · have hlen : decide (0 < (targets.flatMap (fun t =>
          match invFetch t with
          | some fw => [t ++ (": ".toList) ++ fw.version]
          | none => [])).length) = true := by
        rw [decide_eq_true_eq]
        exact List.length_pos.mpr hL
      rw [if_pos (by rw [hA, hlen]; rfl), if_pos ⟨hA, hL⟩]
  · have hAf := Bool.not_eq_true _ |>.mp hA
    rw [if_neg (by rw [hAf]; simp), if_neg (by rintro ⟨h, _⟩; exact hA h)]

/-- C6 counterexample: with an empty target list the version fetch
trivially succeeds for all targets and every target's version equals the
expected one, yet the update is not skipped — the POST is issued because
no version info was collected. -/
theorem c6_counterexample :
    ¬ ((∃ info, SimpleUpdate ("1".toList) false []
          (fun _ => none) = SimpleUpdateDecision.skipped info) ↔
        ∀ t ∈ ([] : List Str), ∃ fw,
          (fun _ => (none : Option FirmwareInventory)) t = some fw ∧
            fw.version = ("1".toList)) := by
  intro h
  obtain ⟨info, hinfo⟩ := h.mpr (fun t ht => absurd ht (List.not_mem_nil t))
  rw [show SimpleUpdate ("1".toList) false [] (fun _ => none) =
    SimpleUpdateDecision.posted from rfl] at hinfo
  exact SimpleUpdateDecision.noConfusion hinfo

/-- C6 (amended): with a non-empty expected version, the pre-flight
aborts with a skip outcome — without issuing the POST — exactly when
force is off, the target list is non-empty, and every target's inventory
fetch succeeds with the expected version; with force on the POST is
issued without any version check; and if any target's fetch fails, the
skip is not taken and the POST is issued. -/
theorem c6_preflight_amended (e : Str) (force : Bool) (targets : List Str)
    (invFetch : Str → Option FirmwareInventory) (he : e ≠ []) :
    ((∃ info, SimpleUpdate e force targets invFetch =
        SimpleUpdateDecision.skipped info) ↔
      (force = false ∧ targets ≠ [] ∧
        ∀ t ∈ targets, ∃ fw, invFetch t = some fw ∧ fw.version = e)) ∧
    (force = true → SimpleUpdate e force targets invFetch =
      SimpleUpdateDecision.posted) ∧
    ((∃ t ∈ targets, invFetch t = none) →
      SimpleUpdate e force targets invFetch = SimpleUpdateDecision.posted) := by
  rcases force with _ | _
  · -- force is off
    have heval := simpleUpdate_eval e targets invFetch he
    have hallIff : ((targets.all fun t =>
        match invFetch t with
        | some fw => fw.version == e
        | none => false) = true) ↔
        ∀ t ∈ targets, ∃ fw, invFetch t = some fw ∧ fw.version = e := by
      rw [List.all_eq_true]
      constructor
      · intro hall t ht
        have := hall t ht
        rcases hft : invFetch t with _ | fw
        · rw [hft] at this
          simp at this
        · rw [hft] at this
          exact ⟨fw, rfl, by simpa using this⟩
      · intro hall t ht
        obtain ⟨fw, hft, hv⟩ := hall t ht
        rw [hft]
        simpa using hv
    have hLIff : (targets.flatMap (fun t =>
        match invFetch t with
        | some fw => [t ++ (": ".toList) ++ fw.version]
        | none => []) ≠ []) ↔
        ∃ t ∈ targets, invFetch t ≠ none := by
      rw [Ne, List.flatMap_eq_nil_iff]
      constructor
      · intro h
        by_contra hc
        push_neg at hc
        apply h
        intro t ht
        have hnone := hc t ht
        rcases hft : invFetch t with _ | fw
        · rfl
        · rw [hft] at hnone
          exact absurd hnone (by simp)
      · rintro ⟨t, ht, hft⟩ hall
        have := hall t ht
        rcases hf2 : invFetch t with _ | fw
        · exact hft hf2
        · rw [hf2] at this
          exact absurd this (by simp)
    refine ⟨?_, by intro h; exact absurd h (by simp), ?_⟩
    · rw [heval]
      constructor
      · rintro ⟨info, hinfo⟩
        by_cases hc : ((targets.all fun t =>
            match invFetch t with
            | some fw => fw.version == e
            | none => false) = true) ∧
            targets.flatMap (fun t =>
              match invFetch t with
              | some fw => [t ++ (": ".toList) ++ fw.version]
              | none => []) ≠ []
        · refine ⟨rfl, ?_, hallIff.mp hc.1⟩
          intro hnil
          rw [hnil] at hc
          exact hc.2 (by simp)
        · rw [if_neg hc] at hinfo
          exact SimpleUpdateDecision.noConfusion hinfo
      · rintro ⟨_, hne, hall⟩
        have hA := hallIff.mpr hall
        have hL : targets.flatMap (fun t =>
            match invFetch t with
            | some fw => [t ++ (": ".toList) ++ fw.version]
            | none => []) ≠ [] := by
          rw [hLIff]
          rcases targets with _ | ⟨t0, ts⟩
          · exact absurd rfl hne
          · obtain ⟨fw, hft, _⟩ := hall t0 (by simp)
            exact ⟨t0, by simp, by rw [hft]; simp⟩
        rw [if_pos ⟨hA, hL⟩]
        exact ⟨_, rfl⟩
    · rintro ⟨t, ht, hft⟩
      rw [heval, if_neg]
      rintro ⟨hA, _⟩
      have := List.all_eq_true.mp hA t ht
      rw [hft] at this
      simp at this
  · -- force is on: the version check is bypassed entirely
    have hpost : SimpleUpdate e true targets invFetch = SimpleUpdateDecision.posted := by
      simp only [SimpleUpdate]
      rw [if_neg (by simp)]
    refine ⟨?_, fun _ => hpost, fun _ => hpost⟩
    constructor
    · rintro ⟨info, hinfo⟩
      rw [hpost] at hinfo
      exact SimpleUpdateDecision.noConfusion hinfo
    · rintro ⟨hf, _⟩
      exact absurd hf (by simp)

/-- C6 witness: one target already at the expected version with force off
is skipped. -/
theorem c6_witness :
    ∃ info, SimpleUpdate ("1".toList) false [("t".toList)]
        (fun _ => some ⟨("1".toList), [], [], []⟩) =
      SimpleUpdateDecision.skipped info :=
  ((c6_preflight_amended ("1".toList) false [("t".toList)]
      (fun _ => some ⟨("1".toList), [], [], []⟩) (by decide)).1).mpr
    ⟨rfl, by simp, fun t ht => ⟨⟨("1".toList), [], [], []⟩, rfl, rfl⟩⟩

theorem foldl_agg_version (records : List AggregatedStatus) (a : Aggregates) (v : Str) :
    (records.foldl aggregateRecord a).versionCounts v =
      a.versionCounts v + records.countP (fun r => decide (v = r.observedVersion)) := by
  induction records generalizing a with
  | nil => simp
  | cons r rs ih =>
    rw [List.foldl_cons, ih, List.countP_cons]
    by_cases hv : v = r.observedVersion <;> simp [aggregateRecord, hv] <;> omega

theorem foldl_agg_inprogress (records : List AggregatedStatus) (a : Aggregates) :
    (records.foldl aggregateRecord a).inProgress =
      a.inProgress + records.countP (fun r => r.status == ("in-progress".toList)) := by
  induction records generalizing a with
  | nil => simp
  | cons r rs ih =>
    rw [List.foldl_cons, ih, List.countP_cons]
    by_cases hs : (r.status == ("in-progress".toList)) = true <;>
      simp [aggregateRecord, hs] <;> omega

theorem foldl_agg_errors (records : List AggregatedStatus) (a : Aggregates) (k : Str) :
    ((records.foldl aggregateRecord a).errorsList k ≠ none) ↔
      ((∃ r ∈ records, r.error ≠ [] ∧ k = pairKey r.host r.target) ∨
        a.errorsList k ≠ none) := by
  induction records generalizing a with
  | nil => simp
  | cons r rs ih =>
    rw [List.foldl_cons, ih]
    have hstep : ((aggregateRecord a r).errorsList k ≠ none) ↔
        ((r.error ≠ [] ∧ k = pairKey r.host r.target) ∨ a.errorsList k ≠ none) := by
      simp only [aggregateRecord]
      by_cases hc : (r.error != [] && k == pairKey r.host r.target) = true
      · rw [if_pos hc]
        simp only [Bool.and_eq_true, bne_iff_ne, beq_iff_eq] at hc
        simp [hc]
      · rw [if_neg hc]
        simp only [Bool.and_eq_true, bne_iff_ne, beq_iff_eq] at hc
        constructor
        · intro h
          exact Or.inr h
        · rintro (h | h)
          · exact absurd h hc
          · exact h
    rw [hstep, List.exists_mem_cons_iff]
    constructor
    · rintro (⟨w, hw, hcond⟩ | (hr | ha))
      · exact Or.inl (Or.inr ⟨w, hw, hcond⟩)
      · exact Or.inl (Or.inl hr)
      · exact Or.inr ha
    · rintro ((hr | ⟨w, hw, hcond⟩) | ha)
      · exact Or.inr (Or.inl hr)
      · exact Or.inl ⟨w, hw, hcond⟩
      · exact Or.inr (Or.inr ha)

theorem pairList_length (hosts targets : List Str) :
    (pairList hosts targets).length = hosts.length * targets.length := by
  induction hosts with
  | nil => simp [pairList]
  | cons h hs ih =>
    simp only [pairList, List.flatMap_cons] at ih ⊢
    rw [List.length_append, List.length_map, ih, List.length_cons, Nat.succ_mul]
    omega

theorem pairList_eq_product (hosts targets : List Str) :
    pairList hosts targets = hosts ×ˢ targets := rfl

theorem scheduler_keys (rv : Str) (usF : Str → Option UpdateServiceStatus)
    (taskF : Str → Option (List (Option RfTask)))
    (invF : Str → Str → Except Str FirmwareInventory) (order : List (Str × Str)) :
    (schedulerRecords rv usF taskF invF order).map (fun r => (r.host, r.target)) =
      order := by
  unfold schedulerRecords
  rw [List.map_map]
  have h1 : ((fun r : AggregatedStatus => (r.host, r.target)) ∘
      fun p : Str × Str => recordFor rv usF taskF invF p.1 p.2) =
      fun p : Str × Str => (p.1, p.2) := rfl
  have h2 : (fun p : Str × Str => (p.1, p.2)) = id := rfl
  rw [h1, h2, List.map_id]

/-- C9: for distinct hosts, distinct targets, any admission bound B of the
semaphore, and any order in which the per-pair critical sections complete
(the bound B only restricts which completion orders can occur; every one
of them is a permutation of the pair list, and the theorem covers all
permutations), the scheduler produces exactly one record per (host,
target) pair — N times T records, with no duplicate (host, target)
keys — and the shared aggregates are exactly the per-record counts:
version counts and the in-progress counter count the records, agreeing
with the canonical serial order, and the error map is populated exactly
at the keys of records with non-empty error text. -/
theorem c9_scheduler_aggregation (hosts targets : List Str) (B : Nat) (hB : 1 ≤ B)
    (rv : Str) (usF : Str → Option UpdateServiceStatus)
    (taskF : Str → Option (List (Option RfTask)))
    (invF : Str → Str → Except Str FirmwareInventory)
    (order : List (Str × Str)) (hh : hosts.Nodup) (ht : targets.Nodup)
    (hperm : order.Perm (pairList hosts targets)) :
    (schedulerRecords rv usF taskF invF order).length =
        hosts.length * targets.length ∧
    ((schedulerRecords rv usF taskF invF order).map
        (fun r => (r.host, r.target))).Nodup ∧
    (∀ v, (runAggregation (schedulerRecords rv usF taskF invF order)).versionCounts v =
      (schedulerRecords rv usF taskF invF order).countP
        (fun r => decide (v = r.observedVersion))) ∧
    ((runAggregation (schedulerRecords rv usF taskF invF order)).inProgress =
      (schedulerRecords rv usF taskF invF order).countP
        (fun r => r.status == ("in-progress".toList))) ∧
    (∀ k, ((runAggregation (schedulerRecords rv usF taskF invF order)).errorsList k ≠
        none) ↔
      ∃ r ∈ schedulerRecords rv usF taskF invF order,
        r.error ≠ [] ∧ k = pairKey r.host r.target) ∧
    (∀ v, (runAggregation (schedulerRecords rv usF taskF invF order)).versionCounts v =
      (runAggregation (schedulerRecords rv usF taskF invF
        (pairList hosts targets))).versionCounts v) ∧
    ((runAggregation (schedulerRecords rv usF taskF invF order)).inProgress =
      (runAggregation (schedulerRecords rv usF taskF invF
        (pairList hosts targets))).inProgress) := by
  have hrecperm : (schedulerRecords rv usF taskF invF order).Perm
      (schedulerRecords rv usF taskF invF (pairList hosts targets)) := by
    unfold schedulerRecords
    exact hperm.map _
  refine ⟨?_, ?_, ?_, ?_, ?_, ?_, ?_⟩
  · show (order.map _).length = _
    rw [List.length_map, hperm.length_eq, pairList_length]
  · rw [scheduler_keys]
    rw [hperm.nodup_iff]
    rw [pairList_eq_product]
    exact hh.product ht
  · intro v
    rw [runAggregation, foldl_agg_version]
    simp [initialAggregates]
  · rw [runAggregation, foldl_agg_inprogress]
    simp [initialAggregates]
  · intro k
    rw [runAggregation, foldl_agg_errors]
    simp [initialAggregates]
  · intro v
    rw [runAggregation, runAggregation, foldl_agg_version, foldl_agg_version,
      hrecperm.countP_eq]
  · rw [runAggregation, runAggregation, foldl_agg_inprogress, foldl_agg_inprogress,
      hrecperm.countP_eq]

/-- C9 witness: two hosts, one target, bound 1, with the completion order
reversed relative to admission order; the run still yields exactly two
records. -/
theorem c9_witness :
    (schedulerRecords [] (fun _ => none) (fun _ => none)
        (fun _ _ => Except.error [])
        [(("b".toList), ("t".toList)), (("a".toList), ("t".toList))]).length =
      ([("a".toList), ("b".toList)] : List Str).length *
        ([("t".toList)] : List Str).length :=
  (c9_scheduler_aggregation [("a".toList), ("b".toList)] [("t".toList)] 1
    (by decide) [] (fun _ => none) (fun _ => none) (fun _ _ => Except.error [])
    [(("b".toList), ("t".toList)), (("a".toList), ("t".toList))]
    (by decide) (by decide) (by decide)).1

end ExBootstrap
